import Mathlib

/-
Shallow embedding of the two core components of src/setup_schema.py:
the schema DDL synthesizer (get_all_ddl) and the SQL corpus extractor
(extract_sql_queries).  Text is modelled as List Char; the Python regex
operations used by the source are modelled character by character with
the exact semantics of the regexes appearing in the source:
  re.split(r'--\s*=+|--\s*\w+', content)          block segmentation
  re.sub(r'--.*?$', '', block, flags=re.MULTILINE) comment stripping
  re.split(r';\s*', block)                         statement splitting
  str.strip()                                      fragment trimming
  re.search(r'\b(SELECT|INSERT|UPDATE|DELETE|CREATE|ALTER|DROP|WITH)\b',
            query, re.IGNORECASE)                  validity filter
-/

/-- Character list denoted by a string literal. -/
def str (s : String) : List Char := s.data

/-- ASCII whitespace: the character class of the regex class backslash-s and
of Python str.strip (space, tab, newline, carriage return, vertical tab,
form feed). -/
def isWS (c : Char) : Bool :=
  c == ' ' || c == '\t' || c == '\n' || c == '\r' || c == '\x0b' || c == '\x0c'

/-- Word characters: the character class of the regex class backslash-w
(letters, digits, underscore). -/
def isWordChar (c : Char) : Bool := c.isAlpha || c.isDigit || c == '_'

/-- Length of the match of the regex `--\s*=+|--\s*\w+` anchored at the head
of `l`, or `none` when the regex does not match there.  Both alternatives
start with the literal `--`; after optional whitespace the first alternative
needs a nonempty run of `=` and the second a nonempty run of word
characters, each taken greedily (the first alternative is preferred, as in
Python alternation, and a whitespace run followed by neither class is no
match, exactly as regex backtracking behaves on these two patterns). -/
def matchLen (l : List Char) : Option Nat :=
  match l with
  | '-' :: '-' :: rest =>
    let wsLen := (rest.takeWhile isWS).length
    let rest2 := rest.dropWhile isWS
    match rest2 with
    | '=' :: _ => some (2 + wsLen + (rest2.takeWhile (fun c => c == '=')).length)
    | c :: _ =>
      if isWordChar c then some (2 + wsLen + (rest2.takeWhile isWordChar).length)
      else none
    | [] => none
  | _ => none

/-- Scanner for `re.split(r'--\s*=+|--\s*\w+', content)`: leftmost,
non-overlapping matches become piece boundaries.  The first argument is the
number of characters of a found match still to be skipped; at `skip = 0`
the scanner looks for a fresh match at the current position. -/
def splitDelimsGo : Nat → List Char → List (List Char)
  | _ + 1, [] => [[]]
  | skip + 1, _ :: rest => splitDelimsGo skip rest
  | 0, [] => [[]]
  | 0, c :: rest =>
    match matchLen (c :: rest) with
    | some n => [] :: splitDelimsGo (n - 1) rest
    | none =>
      match splitDelimsGo 0 rest with
      | p :: ps => (c :: p) :: ps
      | [] => [[c]]

/-- Block segmentation of the source: `re.split(r'--\s*=+|--\s*\w+', content)`. -/
def splitDelims (l : List Char) : List (List Char) := splitDelimsGo 0 l

/-- Scanner for `re.sub(r'--.*?$', '', block, flags=re.MULTILINE)`: from each
`--` marker everything up to (but excluding) the end of its line is removed.
The Bool argument records whether the scanner is currently inside a comment
being deleted. -/
def stripCommentsGo : Bool → List Char → List Char
  | _, [] => []
  | true, c :: rest =>
    if c == '\n' then '\n' :: stripCommentsGo false rest
    else stripCommentsGo true rest
  | false, c :: rest =>
    if c == '-' && rest.head? == some '-' then stripCommentsGo true rest
    else c :: stripCommentsGo false rest

/-- Comment stripping of the source: `re.sub(r'--.*?$', '', block, flags=re.MULTILINE)`. -/
def stripComments (l : List Char) : List Char := stripCommentsGo false l

/-- Scanner for `re.split(r';\s*', block)`: each semicolon, together with the
greedy whitespace run following it, is a piece boundary.  The Bool argument
records whether the scanner is inside the whitespace run of a match. -/
def splitSemisGo : Bool → List Char → List (List Char)
  | _, [] => [[]]
  | skipWS, c :: rest =>
    if skipWS && isWS c then splitSemisGo true rest
    else if c == ';' then [] :: splitSemisGo true rest
    else
      match splitSemisGo false rest with
      | p :: ps => (c :: p) :: ps
      | [] => [[c]]

/-- Statement splitting of the source: `re.split(r';\s*', block)`. -/
def splitSemis (l : List Char) : List (List Char) := splitSemisGo false l

/-- Python `str.strip()`: remove leading and trailing whitespace. -/
def stripWS (l : List Char) : List Char :=
  ((l.dropWhile isWS).reverse.dropWhile isWS).reverse

/-- The SQL verb tokens of the validity filter regex, in its alternation order. -/
def verbs : List (List Char) :=
  [str "SELECT", str "INSERT", str "UPDATE", str "DELETE",
   str "CREATE", str "ALTER", str "DROP", str "WITH"]

/-- Case-insensitive literal match: if `v` (given in upper case) matches the
head of the text, return the remaining text, else `none`. -/
def ciStrip : List Char → List Char → Option (List Char)
  | [], rest => some rest
  | _ :: _, [] => none
  | v :: vs, c :: rest => if c.toUpper == v then ciStrip vs rest else none

/-- The regex word-boundary test after a matched verb: the match must be
followed by a non-word character or by the end of the text. -/
def boundaryAfter (rest : List Char) : Bool :=
  match rest with
  | [] => true
  | c :: _ => !isWordChar c

/-- Does some verb of the alternation match at this position, with a word
boundary after it?  (The word boundary before it is checked by the caller.) -/
def checkVerbAt (l : List Char) : Bool :=
  verbs.any (fun v =>
    match ciStrip v l with
    | some rest => boundaryAfter rest
    | none => false)

/-- Scanner for `re.search(r'\b(SELECT|...|WITH)\b', query, re.IGNORECASE)`:
try every position; a match needs a word boundary on both sides.  The Bool
argument records whether the previous character is a word character. -/
def hasVerbGo : Bool → List Char → Bool
  | _, [] => false
  | prevWord, c :: rest =>
    (!prevWord && checkVerbAt (c :: rest)) || hasVerbGo (isWordChar c) rest

/-- The validity filter of the source: the whole-word, case-insensitive
verb search. -/
def hasVerb (l : List Char) : Bool := hasVerbGo false l

/-- The per-block body of the extraction loop in `extract_sql_queries`:
strip comments, split on semicolons, trim, drop empty fragments, keep
fragments passing the verb filter, and re-append one semicolon. -/
def processBlock (block : List Char) : List (List Char) :=
  let stripped := stripComments block
  let frags := ((splitSemis stripped).map stripWS).filter (fun q => !q.isEmpty)
  (frags.filter hasVerb).map (fun q => q ++ [';'])

/-- The pure text transform performed by `extract_sql_queries` on the file
content: blocks in order, kept fragments within each block in order. -/
def extract (content : List Char) : List (List Char) :=
  ((splitDelims content).map processBlock).flatten

/-- `extract_sql_queries(file_path)` of the source.  The file system is
modelled by the argument: `none` is a nonexistent path (the
`os.path.exists` test fails and the function returns `(False, [])`), and
`some content` is an existing file holding `content`. -/
def extract_sql_queries : Option (List Char) → Bool × List (List Char)
  | none => (false, [])
  | some content => (true, extract content)

/-- Column metadata as consumed by `get_all_ddl`: name, rendered type, and
nullability (the source reads `column.get('nullable', True)`, so the
provider default `true` is already folded into this field). -/
structure ColumnMeta where
  name : List Char
  type : List Char
  nullable : Bool
deriving DecidableEq

/-- Table metadata as consumed by `get_all_ddl`: name and columns in
introspection order. -/
structure TableMeta where
  name : List Char
  columns : List ColumnMeta
deriving DecidableEq

/-- The column rendering of the source: `f"{column['name']} {column['type']}"`
plus `" NOT NULL"` when the column is not nullable. -/
def column_def (c : ColumnMeta) : List Char :=
  c.name ++ str " " ++ c.type ++ (if c.nullable then [] else str " NOT NULL")

/-- Python `sep.join(xs)`. -/
def joinSep (sep : List Char) : List (List Char) → List Char
  | [] => []
  | [x] => x
  | x :: xs => x ++ sep ++ joinSep sep xs

/-- The per-table DDL rendering of the source:
`f"CREATE TABLE {table_name} (\n  " + ",\n  ".join(column_defs) + "\n);"`. -/
def table_ddl (t : TableMeta) : List Char :=
  str "CREATE TABLE " ++ t.name ++ str " (\n  "
    ++ joinSep (str ",\n  ") (t.columns.map column_def) ++ str "\n);"

/-- `get_all_ddl` of the source: one DDL string per introspected table, in
introspection order (the source appends `table_ddl` for every table of the
loop, with no skipping). -/
def get_all_ddl (tables : List TableMeta) : List (List Char) :=
  tables.map table_ddl

/-- Spec-side column rendering, following the words of the spec: the column
definition is the name, a space, the type, with the text " NOT NULL"
appended exactly when nullable is false. -/
def spec_column_def (c : ColumnMeta) : List Char :=
  c.name ++ str " " ++ c.type ++ (if c.nullable = false then str " NOT NULL" else [])

/-- Spec-side body of the parenthesised column list: one line per column,
each line indented by two spaces, lines separated by commas. -/
def ddlSpecBody : List (List Char) → List Char
  | [] => []
  | [d] => str "\n  " ++ d
  | d :: ds => str "\n  " ++ d ++ str "," ++ ddlSpecBody ds

/-- Spec-side DDL rendering, following the words of the spec: the string
CREATE TABLE name ( followed by the column lines and the closing line. -/
def ddl_spec (t : TableMeta) : List Char :=
  str "CREATE TABLE " ++ t.name ++ str " ("
    ++ ddlSpecBody (t.columns.map spec_column_def) ++ str "\n);"

/-- Does the text end in exactly one semicolon (present and not doubled)? -/
def endsSingleSemi (q : List Char) : Bool :=
  q.getLast? == some ';' && q.dropLast.getLast? != some ';'

/-- Does the text have neither leading nor trailing whitespace? -/
def noEdgeWS (q : List Char) : Bool :=
  (match q.head? with | some c => !isWS c | none => true) &&
  (match q.getLast? with | some c => !isWS c | none => true)

/-- Case-insensitive substring containment of some SQL verb token (no word
boundary requirement: plain containment, as the invariant claim states it). -/
def containsVerbCI : List Char → Bool
  | [] => false
  | c :: rest =>
    verbs.any (fun v => (ciStrip v (c :: rest)).isSome) || containsVerbCI rest

/-- Does the text contain two adjacent dash characters (the SQL comment
marker)? -/
def containsDD : List Char → Bool
  | [] => false
  | [_] => false
  | a :: b :: rest => (a == '-' && b == '-') || containsDD (b :: rest)

/-- Number of semicolon-terminated segments of a text: each semicolon
occurrence terminates exactly one segment. -/
def semiTerminatedSegments (l : List Char) : Nat := l.count ';'

/-- Word-character status of the last character of a text, with a default for
the empty text: the state the verb scanner is in after reading the text. -/
def lastWord : Bool → List Char → Bool
  | prev, [] => prev
  | _, c :: rest => lastWord (isWordChar c) rest

/-- Dropping while a predicate holds yields a suffix: the original list is
some prefix followed by the result. -/
theorem exists_append_dropWhile (p : Char → Bool) :
    ∀ l : List Char, ∃ s, l = s ++ l.dropWhile p
  | [] => ⟨[], rfl⟩
  | c :: rest => by
    by_cases h : p c
    · obtain ⟨s, hs⟩ := exists_append_dropWhile p rest
      exact ⟨c :: s, by simp [List.dropWhile, h, ← hs]⟩
    · exact ⟨[], by simp [List.dropWhile, h]⟩

/-- A member of the dropWhile result is a member of the original list. -/
theorem mem_dropWhile_imp (p : Char → Bool) (l : List Char) (x : Char)
    (h : x ∈ l.dropWhile p) : x ∈ l := by
  obtain ⟨s, hs⟩ := exists_append_dropWhile p l
  rw [hs]
  exact List.mem_append_right s h

/-- The head of a dropWhile result fails the predicate. -/
theorem dropWhile_head_false (p : Char → Bool) :
    ∀ (l : List Char) (c : Char), (l.dropWhile p).head? = some c → p c = false
  | [], c, h => by simp [List.dropWhile] at h
  | a :: rest, c, h => by
    by_cases hp : p a
    · exact dropWhile_head_false p rest c (by simpa [List.dropWhile, hp] using h)
    · simp [List.dropWhile, hp] at h
      subst h
      exact Bool.eq_false_iff.mpr hp

/-- Unfolding equation for containsDD on a list with at least two elements. -/
theorem containsDD_cons_cons (a b : Char) (l : List Char) :
    containsDD (a :: b :: l) = ((a == '-' && b == '-') || containsDD (b :: l)) := rfl

/-- If a list with a head has no adjacent dashes, neither has its tail. -/
theorem containsDD_tail : ∀ (a : Char) (l : List Char),
    containsDD (a :: l) = false → containsDD l = false
  | _, [], _ => rfl
  | a, b :: r, h => by
    rw [containsDD_cons_cons] at h
    exact (Bool.or_eq_false_iff.mp h).2

/-- Consing a character onto a dash-free list stays dash-free, provided no
new dash pair forms at the head. -/
theorem containsDD_cons_false (a : Char) (l : List Char)
    (h1 : a = '-' → l.head? ≠ some '-') (h2 : containsDD l = false) :
    containsDD (a :: l) = false := by
  cases l with
  | nil => rfl
  | cons b r =>
    rw [containsDD_cons_cons]
    rw [Bool.or_eq_false_iff]
    refine ⟨?_, h2⟩
    rw [Bool.and_eq_false_iff]
    by_cases ha : a = '-'
    · right
      have hb : b ≠ '-' := fun hb => h1 ha (by simp [hb])
      simp [hb]
    · left
      simp [ha]

/-- Consing onto a list already holding adjacent dashes keeps them. -/
theorem containsDD_cons_of_tail (a : Char) (l : List Char)
    (h : containsDD l = true) : containsDD (a :: l) = true := by
  cases l with
  | nil => simp [containsDD] at h
  | cons b r =>
    rw [containsDD_cons_cons, h]
    simp

/-- Characterisation: a text holds adjacent dashes exactly when it splits
around a literal dash pair. -/
theorem containsDD_iff : ∀ l : List Char,
    containsDD l = true ↔ ∃ x y, l = x ++ '-' :: '-' :: y
  | [] => by
    constructor
    · intro h
      simp [containsDD] at h
    · rintro ⟨x, y, hxy⟩
      exact absurd hxy (by simp)
  | [a] => by
    constructor
    · intro h
      simp [containsDD] at h
    · rintro ⟨x, y, hxy⟩
      cases x with
      | nil => simp at hxy
      | cons u x => cases x <;> simp at hxy
  | a :: b :: r => by
    constructor
    · intro h
      rw [containsDD_cons_cons] at h
      rcases Bool.or_eq_true_iff.mp h with h | h
      · obtain ⟨ha, hb⟩ := Bool.and_eq_true_iff.mp h
        exact ⟨[], r, by simp [beq_iff_eq.mp ha, beq_iff_eq.mp hb]⟩
      · obtain ⟨x, y, hxy⟩ := (containsDD_iff (b :: r)).mp h
        exact ⟨a :: x, y, by simp [hxy]⟩
    · rintro ⟨x, y, hxy⟩
      cases x with
      | nil =>
        simp at hxy
        rw [containsDD_cons_cons, hxy.1, hxy.2.1]
        simp
      | cons u x =>
        simp at hxy
        apply containsDD_cons_of_tail
        exact (containsDD_iff (b :: r)).mpr ⟨x, y, hxy.2⟩

/-- Adjacent dashes inside an infix are adjacent dashes in the whole text. -/
theorem containsDD_of_middle (m u v : List Char)
    (h : containsDD m = true) : containsDD (u ++ m ++ v) = true := by
  obtain ⟨x, y, hxy⟩ := (containsDD_iff m).mp h
  refine (containsDD_iff (u ++ m ++ v)).mpr ⟨u ++ x, y ++ v, ?_⟩
  simp [hxy]

/-- Appending a non-dash character does not create adjacent dashes. -/
theorem containsDD_concat : ∀ (l : List Char) (c : Char), c ≠ '-' →
    containsDD (l ++ [c]) = containsDD l
  | [], c, _ => by simp [containsDD]
  | [a], c, hc => by
    have : containsDD ([a] ++ [c]) = ((a == '-' && c == '-') || containsDD [c]) := rfl
    rw [this]
    simp [containsDD, hc]
  | a :: b :: r, c, hc => by
    have h2 : containsDD ((a :: b :: r) ++ [c])
        = ((a == '-' && b == '-') || containsDD ((b :: r) ++ [c])) := rfl
    rw [h2, containsDD_concat (b :: r) c hc, containsDD_cons_cons]

/-- The output of the comment scanner in deletion mode starts, if at all,
with the newline terminating the deleted comment. -/
theorem stripTrue_head : ∀ l : List Char,
    (stripCommentsGo true l).head? = none ∨ (stripCommentsGo true l).head? = some '\n'
  | [] => Or.inl rfl
  | c :: rest => by
    by_cases h : c == '\n'
    · right
      simp [stripCommentsGo, h]
    · have := stripTrue_head rest
      simpa [stripCommentsGo, h] using this

/-- The output of the comment scanner in copy mode starts with nothing, with
a newline, or with the first input character. -/
theorem stripFalse_head (l : List Char) :
    (stripCommentsGo false l).head? = none ∨ (stripCommentsGo false l).head? = some '\n'
    ∨ (stripCommentsGo false l).head? = l.head? := by
  cases l with
  | nil => exact Or.inl rfl
  | cons c rest =>
    by_cases h : c == '-' && rest.head? == some '-'
    · rcases stripTrue_head rest with h1 | h1
      · left
        simpa [stripCommentsGo, h] using h1
      · right
        left
        simpa [stripCommentsGo, h] using h1
    · right
      right
      simp [stripCommentsGo, h]

/-- Comment stripping leaves no adjacent dashes in its output, whichever
mode the scanner starts in. -/
theorem stripComments_noDD : ∀ l : List Char,
    containsDD (stripCommentsGo false l) = false
    ∧ containsDD (stripCommentsGo true l) = false
  | [] => ⟨rfl, rfl⟩
  | c :: rest => by
    obtain ⟨ihF, ihT⟩ := stripComments_noDD rest
    constructor
    · by_cases h : c == '-' && rest.head? == some '-'
      · simpa [stripCommentsGo, h] using ihT
      · have hout : stripCommentsGo false (c :: rest) = c :: stripCommentsGo false rest := by
          simp [stripCommentsGo, h]
        rw [hout]
        apply containsDD_cons_false _ _ _ ihF
        intro hc hhead
        rcases stripFalse_head rest with h1 | h1 | h1
        · rw [h1] at hhead
          exact Option.noConfusion hhead
        · rw [h1] at hhead
          simp at hhead
        · rw [h1] at hhead
          exact h (by simp [hc, hhead])
    · by_cases h : c == '\n'
      · have hout : stripCommentsGo true (c :: rest) = '\n' :: stripCommentsGo false rest := by
          simp [stripCommentsGo, h]
        rw [hout]
        apply containsDD_cons_false _ _ _ ihF
        intro hc
        exact absurd hc (by decide)
      · simpa [stripCommentsGo, h] using ihT

/-- On a text free of adjacent dashes, comment stripping is the identity. -/
theorem stripComments_id_of_noDD : ∀ l : List Char,
    containsDD l = false → stripCommentsGo false l = l
  | [], _ => rfl
  | c :: rest, h => by
    have hguard : ¬((c == '-' && rest.head? == some '-') = true) := by
      intro hg
      obtain ⟨hc, hh⟩ := Bool.and_eq_true_iff.mp hg
      cases rest with
      | nil => simp at hh
      | cons d r =>
        have hd : d = '-' := by simpa using hh
        have hc2 : c = '-' := by simpa using hc
        rw [containsDD_cons_cons] at h
        simp [hc2, hd] at h
    have hout : stripCommentsGo false (c :: rest) = c :: stripCommentsGo false rest := by
      simp [stripCommentsGo, hguard]
    rw [hout, stripComments_id_of_noDD rest (containsDD_tail c rest h)]

/-- The first piece produced by the semicolon splitter is empty or starts
with the first input character. -/
theorem splitSemisFalse_first (l : List Char) (p0 : List Char) (ps : List (List Char))
    (h : splitSemisGo false l = p0 :: ps) : p0 = [] ∨ p0.head? = l.head? := by
  cases l with
  | nil =>
    rw [show splitSemisGo false [] = [[]] from rfl] at h
    injection h with h1 _
    exact Or.inl h1.symm
  | cons c rest =>
    by_cases h2 : (c == ';') = true
    · rw [show splitSemisGo false (c :: rest) = [] :: splitSemisGo true rest from by
        simp [splitSemisGo, h2]] at h
      injection h with h1 _
      exact Or.inl h1.symm
    · cases hr : splitSemisGo false rest with
      | nil =>
        rw [show splitSemisGo false (c :: rest) = [[c]] from by
          simp [splitSemisGo, h2, hr]] at h
        injection h with h1 _
        right
        rw [← h1]
        rfl
      | cons q qs =>
        rw [show splitSemisGo false (c :: rest) = (c :: q) :: qs from by
          simp [splitSemisGo, h2, hr]] at h
        injection h with h1 _
        right
        rw [← h1]
        rfl

/-- Every piece produced by the semicolon splitter contains no semicolon,
and contains no adjacent dashes when the input has none. -/
theorem splitSemisGo_mem (l : List Char) : ∀ (sk : Bool) (p : List Char),
    p ∈ splitSemisGo sk l →
    ';' ∉ p ∧ (containsDD l = false → containsDD p = false) := by
  induction l with
  | nil =>
    intro sk p hp
    rw [show splitSemisGo sk [] = [[]] from rfl] at hp
    simp at hp
    subst hp
    exact ⟨by simp, fun _ => rfl⟩
  | cons c rest ih =>
    intro sk p hp
    by_cases h1 : (sk && isWS c) = true
    · rw [show splitSemisGo sk (c :: rest) = splitSemisGo true rest from by
        simp [splitSemisGo, h1]] at hp
      obtain ⟨hs, hd⟩ := ih true p hp
      exact ⟨hs, fun h => hd (containsDD_tail c rest h)⟩
    · by_cases h2 : (c == ';') = true
      · rw [show splitSemisGo sk (c :: rest) = [] :: splitSemisGo true rest from by
          simp [splitSemisGo, h1, h2]] at hp
        rcases List.mem_cons.mp hp with hp | hp
        · subst hp
          exact ⟨by simp, fun _ => rfl⟩
        · obtain ⟨hs, hd⟩ := ih true p hp
          exact ⟨hs, fun h => hd (containsDD_tail c rest h)⟩
      · have hcne : c ≠ ';' := fun he => h2 (by simp [he])
        cases hrec : splitSemisGo false rest with
        | nil =>
          rw [show splitSemisGo sk (c :: rest) = [[c]] from by
            simp [splitSemisGo, h1, h2, hrec]] at hp
          simp at hp
          subst hp
          refine ⟨?_, fun _ => rfl⟩
          simp
          exact Ne.symm hcne
        | cons p0 ps =>
          rw [show splitSemisGo sk (c :: rest) = (c :: p0) :: ps from by
            simp [splitSemisGo, h1, h2, hrec]] at hp
          rcases List.mem_cons.mp hp with hp | hp
          · subst hp
            obtain ⟨hs0, hd0⟩ := ih false p0 (by rw [hrec]; exact List.mem_cons_self p0 ps)
            constructor
            · intro hmem
              rcases List.mem_cons.mp hmem with he | he
              · exact hcne he.symm
              · exact hs0 he
            · intro hDD
              apply containsDD_cons_false _ _ _ (hd0 (containsDD_tail c rest hDD))
              intro hc hp0head
              rcases splitSemisFalse_first rest p0 ps hrec with hp0 | hp0
              · rw [hp0] at hp0head
                exact Option.noConfusion hp0head
              · rw [hp0] at hp0head
                cases rest with
                | nil => exact Option.noConfusion hp0head
                | cons d r =>
                  have hd2 : d = '-' := by simpa using hp0head
                  rw [containsDD_cons_cons, hc, hd2] at hDD
                  simp at hDD
          · obtain ⟨hs, hd⟩ := ih false p (by rw [hrec]; exact List.mem_cons_of_mem p0 hp)
            exact ⟨hs, fun h => hd (containsDD_tail c rest h)⟩

/-- Trimming leaves no leading whitespace. -/
theorem stripWS_head (l : List Char) (c : Char) (h : (stripWS l).head? = some c) :
    isWS c = false := by
  obtain ⟨s, hs⟩ := exists_append_dropWhile isWS (l.dropWhile isWS).reverse
  have hA : l.dropWhile isWS = stripWS l ++ s.reverse := by
    have h2 := congrArg List.reverse hs
    rw [List.reverse_reverse, List.reverse_append] at h2
    exact h2
  cases hsw : stripWS l with
  | nil =>
    rw [hsw] at h
    exact Option.noConfusion h
  | cons x xs =>
    rw [hsw] at h
    injection h with hx
    rw [hsw] at hA
    have hhead : (l.dropWhile isWS).head? = some x := by rw [hA]; rfl
    rw [← hx]
    exact dropWhile_head_false isWS l x hhead

/-- Trimming leaves no trailing whitespace. -/
theorem stripWS_last (l : List Char) (c : Char) (h : (stripWS l).getLast? = some c) :
    isWS c = false := by
  unfold stripWS at h
  rw [List.getLast?_reverse] at h
  exact dropWhile_head_false isWS _ c h

/-- Characters of the trimmed text are characters of the original text. -/
theorem stripWS_mem (l : List Char) (x : Char) (h : x ∈ stripWS l) : x ∈ l := by
  unfold stripWS at h
  rw [List.mem_reverse] at h
  have h2 := mem_dropWhile_imp isWS _ x h
  rw [List.mem_reverse] at h2
  exact mem_dropWhile_imp isWS l x h2

/-- Trimming a text free of adjacent dashes yields a text free of them. -/
theorem stripWS_noDD (l : List Char) (h : containsDD l = false) :
    containsDD (stripWS l) = false := by
  cases hcc : containsDD (stripWS l) with
  | false => rfl
  | true =>
    exfalso
    obtain ⟨s, hs⟩ := exists_append_dropWhile isWS (l.dropWhile isWS).reverse
    have hA : l.dropWhile isWS = stripWS l ++ s.reverse := by
      have h2 := congrArg List.reverse hs
      rw [List.reverse_reverse, List.reverse_append] at h2
      exact h2
    obtain ⟨u, hu⟩ := exists_append_dropWhile isWS l
    have h3 : containsDD l = true := by
      rw [hu, hA, ← List.append_assoc]
      exact containsDD_of_middle (stripWS l) u s.reverse hcc
    rw [h] at h3
    exact Bool.noConfusion h3

/-- A successful case-insensitive match extends along an appended tail. -/
theorem ciStrip_append : ∀ (v l t r : List Char),
    ciStrip v l = some r → ciStrip v (l ++ t) = some (r ++ t)
  | [], l, t, r, h => by
    rw [show ciStrip [] l = some l from rfl] at h
    injection h with h1
    rw [show ciStrip [] (l ++ t) = some (l ++ t) from rfl, h1]
  | v :: vs, [], t, r, h => by
    rw [show ciStrip (v :: vs) [] = none from rfl] at h
    exact Option.noConfusion h
  | v :: vs, c :: l, t, r, h => by
    by_cases hc : (c.toUpper == v) = true
    · rw [show ciStrip (v :: vs) (c :: l) = ciStrip vs l from by simp [ciStrip, hc]] at h
      rw [show (c :: l) ++ t = c :: (l ++ t) from rfl]
      rw [show ciStrip (v :: vs) (c :: (l ++ t)) = ciStrip vs (l ++ t) from by
        simp [ciStrip, hc]]
      exact ciStrip_append vs l t r h
    · rw [show ciStrip (v :: vs) (c :: l) = none from by simp [ciStrip, hc]] at h
      exact Option.noConfusion h

/-- A boundary-checked verb match is in particular a plain verb match. -/
theorem checkVerbAt_imp (l : List Char) (h : checkVerbAt l = true) :
    verbs.any (fun v => (ciStrip v l).isSome) = true := by
  unfold checkVerbAt at h
  rw [List.any_eq_true] at h ⊢
  obtain ⟨v, hv, hmatch⟩ := h
  refine ⟨v, hv, ?_⟩
  cases hcs : ciStrip v l with
  | none =>
    rw [hcs] at hmatch
    simp at hmatch
  | some r => simp [hcs]

/-- A whole-word verb occurrence is in particular a substring occurrence. -/
theorem hasVerbGo_imp_ci : ∀ (l : List Char) (prev : Bool),
    hasVerbGo prev l = true → containsVerbCI l = true
  | [], prev, h => by
    rw [show hasVerbGo prev [] = false from rfl] at h
    exact Bool.noConfusion h
  | c :: rest, prev, h => by
    rw [show hasVerbGo prev (c :: rest)
      = ((!prev && checkVerbAt (c :: rest)) || hasVerbGo (isWordChar c) rest) from rfl] at h
    rw [show containsVerbCI (c :: rest)
      = (verbs.any (fun v => (ciStrip v (c :: rest)).isSome) || containsVerbCI rest) from rfl]
    rcases Bool.or_eq_true_iff.mp h with h | h
    · rw [checkVerbAt_imp (c :: rest) (Bool.and_eq_true_iff.mp h).2]
      rfl
    · rw [hasVerbGo_imp_ci rest (isWordChar c) h]
      simp

/-- Substring verb containment persists along an appended tail. -/
theorem containsVerbCI_append : ∀ (l t : List Char),
    containsVerbCI l = true → containsVerbCI (l ++ t) = true
  | [], _, h => by
    rw [show containsVerbCI [] = false from rfl] at h
    exact Bool.noConfusion h
  | c :: rest, t, h => by
    rw [show containsVerbCI (c :: rest)
      = (verbs.any (fun v => (ciStrip v (c :: rest)).isSome) || containsVerbCI rest) from rfl] at h
    rw [show (c :: rest) ++ t = c :: (rest ++ t) from rfl]
    rw [show containsVerbCI (c :: (rest ++ t))
      = (verbs.any (fun v => (ciStrip v (c :: (rest ++ t))).isSome)
        || containsVerbCI (rest ++ t)) from rfl]
    rcases Bool.or_eq_true_iff.mp h with h | h
    · rw [List.any_eq_true] at h
      obtain ⟨v, hv, hsome⟩ := h
      cases hcs : ciStrip v (c :: rest) with
      | none =>
        rw [hcs] at hsome
        simp at hsome
      | some r =>
        have hext := ciStrip_append v (c :: rest) t r hcs
        have h2 : verbs.any (fun v2 => (ciStrip v2 (c :: (rest ++ t))).isSome) = true := by
          rw [List.any_eq_true]
          refine ⟨v, hv, ?_⟩
          rw [show c :: (rest ++ t) = (c :: rest) ++ t from rfl, hext]
          rfl
        rw [h2]
        rfl
    · rw [containsVerbCI_append rest t h]
      simp

/-- The verb scanner finds a verb in an appended tail when the state after
the leading text is the matching one. -/
theorem hasVerbGo_append : ∀ (a : List Char) (prev : Bool) (l : List Char),
    hasVerbGo (lastWord prev a) l = true → hasVerbGo prev (a ++ l) = true
  | [], _, _, h => h
  | c :: a, prev, l, h => by
    rw [show (c :: a) ++ l = c :: (a ++ l) from rfl]
    rw [show hasVerbGo prev (c :: (a ++ l))
      = ((!prev && checkVerbAt (c :: (a ++ l))) || hasVerbGo (isWordChar c) (a ++ l)) from rfl]
    rw [hasVerbGo_append a (isWordChar c) l h]
    simp

/-- Every nonempty text has a last character. -/
theorem getLast?_cons_some : ∀ (c : Char) (l : List Char), ∃ d, (c :: l).getLast? = some d
  | c, [] => ⟨c, rfl⟩
  | c, e :: l => by
    obtain ⟨d, hd⟩ := getLast?_cons_some e l
    exact ⟨d, by rw [List.getLast?_cons_cons]; exact hd⟩

/-- The scanner state after a text equals the word-character status of its
last character. -/
theorem lastWord_last : ∀ (a : List Char) (prev : Bool) (c : Char),
    a.getLast? = some c → lastWord prev a = isWordChar c
  | [], _, _, h => Option.noConfusion h
  | [d], prev, c, h => by
    have hd : d = c := by simpa using h
    rw [show lastWord prev [d] = isWordChar d from rfl, hd]
  | d :: e :: a, prev, c, h => by
    rw [List.getLast?_cons_cons] at h
    exact lastWord_last (e :: a) (isWordChar d) c h

/-- A text whose last character is not a word character leaves the scanner
in the non-word state. -/
theorem lastWord_false : ∀ (a : List Char),
    (∀ c, a.getLast? = some c → isWordChar c = false) → lastWord false a = false
  | [], _ => rfl
  | d :: t, h => by
    obtain ⟨c, hc⟩ := getLast?_cons_some d t
    rw [lastWord_last (d :: t) false c hc]
    exact h c hc

/-- The verb check fires on the text SELECT followed by a space, whatever
comes after the space. -/
theorem checkVerbAt_SELECT (b : List Char) :
    checkVerbAt ('S' :: 'E' :: 'L' :: 'E' :: 'C' :: 'T' :: ' ' :: b) = true := by
  unfold checkVerbAt verbs
  rw [List.any_cons]
  rw [show ciStrip (str "SELECT") ('S' :: 'E' :: 'L' :: 'E' :: 'C' :: 'T' :: ' ' :: b)
    = some (' ' :: b) from rfl]
  have hsp : isWordChar ' ' = false := by decide
  simp [boundaryAfter, hsp]

/-- The last character of a text is one of its characters. -/
theorem mem_of_getLast?_char : ∀ (l : List Char) (c : Char), l.getLast? = some c → c ∈ l
  | [], _, h => Option.noConfusion h
  | [d], c, h => by
    have hd : d = c := by simpa using h
    simp [hd]
  | d :: e :: l, c, h => by
    rw [List.getLast?_cons_cons] at h
    exact List.mem_cons_of_mem d (mem_of_getLast?_char (e :: l) c h)

/-- Shape of every extracted statement: a nonempty trimmed fragment that
passes the verb filter, holds no semicolon and no adjacent dashes, followed
by the single re-appended semicolon. -/
theorem extract_mem (content : List Char) (q : List Char) (hq : q ∈ extract content) :
    ∃ f, q = f ++ [';'] ∧ f ≠ [] ∧ hasVerb f = true
      ∧ (∀ c, f.head? = some c → isWS c = false)
      ∧ (∀ c, f.getLast? = some c → isWS c = false)
      ∧ ';' ∉ f ∧ containsDD f = false := by
  unfold extract at hq
  rw [List.mem_flatten] at hq
  obtain ⟨out, hout, hqout⟩ := hq
  rw [List.mem_map] at hout
  obtain ⟨block, hblock, hpb⟩ := hout
  rw [← hpb] at hqout
  simp only [processBlock] at hqout
  rw [List.mem_map] at hqout
  obtain ⟨f, hf, hfq⟩ := hqout
  rw [List.mem_filter] at hf
  obtain ⟨hf1, hfverb⟩ := hf
  rw [List.mem_filter] at hf1
  obtain ⟨hf2, hfne⟩ := hf1
  rw [List.mem_map] at hf2
  obtain ⟨p, hp, hpf⟩ := hf2
  unfold splitSemis at hp
  have hnoDDblock : containsDD (stripComments block) = false := (stripComments_noDD block).1
  obtain ⟨hsemi, hDD⟩ := splitSemisGo_mem (stripComments block) false p hp
  have hDDp : containsDD p = false := hDD hnoDDblock
  refine ⟨f, hfq.symm, ?_, hfverb, ?_, ?_, ?_, ?_⟩
  · intro he
    rw [he] at hfne
    simp at hfne
  · intro c hc
    rw [← hpf] at hc
    exact stripWS_head p c hc
  · intro c hc
    rw [← hpf] at hc
    exact stripWS_last p c hc
  · intro hmem
    rw [← hpf] at hmem
    exact hsemi (stripWS_mem p ';' hmem)
  · rw [← hpf]
    exact stripWS_noDD p hDDp

/-- The indented column list of the source rendering coincides with the
spec-side body on a nonempty column list. -/
theorem joinSep_spec : ∀ (d : List Char) (ds : List (List Char)),
    str "\n  " ++ joinSep (str ",\n  ") (d :: ds) = ddlSpecBody (d :: ds)
  | _, [] => rfl
  | d, e :: ds => by
    rw [show joinSep (str ",\n  ") (d :: e :: ds)
      = d ++ str ",\n  " ++ joinSep (str ",\n  ") (e :: ds) from rfl]
    rw [show ddlSpecBody (d :: e :: ds)
      = str "\n  " ++ d ++ str "," ++ ddlSpecBody (e :: ds) from rfl]
    rw [← joinSep_spec e ds]
    rw [show str ",\n  " = str "," ++ str "\n  " from rfl]
    simp [List.append_assoc]

/-- Variant of the previous lemma with an explicit appended tail. -/
theorem joinSep_spec_tail (d : List Char) (ds : List (List Char)) (t : List Char) :
    str "\n  " ++ (joinSep (str ",\n  ") (d :: ds) ++ t) = ddlSpecBody (d :: ds) ++ t := by
  rw [← List.append_assoc, joinSep_spec]

/-- The two column renderings agree. -/
theorem column_def_eq_spec (c : ColumnMeta) : column_def c = spec_column_def c := by
  cases hn : c.nullable <;> simp [column_def, spec_column_def, hn]

/-- Claim C1, counterexample: on the single-table input whose table `t` has
zero columns, the claim predicts that no DDL statement is emitted, so the
output should be empty; the code emits a statement for that table. -/
theorem c1_zero_column_counterexample : get_all_ddl [⟨str "t", []⟩] ≠ [] := by decide

/-- Claim C1, amended: `get_all_ddl` emits exactly one DDL statement per
input table, zero-column tables included; for a zero-column table `t` it
emits the degenerate statement `CREATE TABLE t (\n  \n);` instead of
skipping the table. -/
theorem c1_one_ddl_per_table :
    (∀ tables : List TableMeta, (get_all_ddl tables).length = tables.length)
    ∧ get_all_ddl [⟨str "t", []⟩] = [str "CREATE TABLE t (\n  \n);"] :=
  ⟨fun tables => by simp [get_all_ddl], by decide⟩

/-- Claim C2: on the input text of the claim the extractor does NOT return
the claimed pair of statements; the block-segmentation regex consumes only
`-- get` out of the comment `-- get all`, so the residue `all` leaks into
the following block and is prepended to the second statement.  This theorem
evaluates the code at the failing input and shows the divergence. -/
theorem c2_comment_residue :
    extract (str "-- ==========\nSELECT * FROM users; -- get all\nUPDATE users SET x=1;\n")
      = [str "SELECT * FROM users;", str "all\nUPDATE users SET x=1;"]
    ∧ [str "SELECT * FROM users;", str "all\nUPDATE users SET x=1;"]
      ≠ [str "SELECT * FROM users;", str "UPDATE users SET x=1;"] := by
  constructor
  · decide
  · decide

/-- Claim C3: for every table with at least one column the source rendering
equals the spec rendering (name, then one indented `name type` line per
column in order, `NOT NULL` exactly on non-nullable columns, comma
separated); output statements are in input table order; and the `users`
example renders to the exact claimed string. -/
theorem c3_ddl_rendering :
    (∀ t : TableMeta, t.columns ≠ [] → table_ddl t = ddl_spec t)
    ∧ (∀ tables : List TableMeta, get_all_ddl tables = tables.map table_ddl)
    ∧ get_all_ddl [⟨str "users",
        [⟨str "id", str "INTEGER", false⟩, ⟨str "email", str "VARCHAR", true⟩]⟩]
      = [str "CREATE TABLE users (\n  id INTEGER NOT NULL,\n  email VARCHAR\n);"] := by
  refine ⟨?_, fun tables => rfl, by decide⟩
  intro t ht
  cases hcols : t.columns with
  | nil => exact absurd hcols ht
  | cons d ds =>
    unfold table_ddl ddl_spec
    have hfun : column_def = spec_column_def := funext column_def_eq_spec
    rw [hcols, hfun]
    simp only [List.map_cons]
    rw [show str " (\n  " = str " (" ++ str "\n  " from rfl]
    simp [List.append_assoc, joinSep_spec_tail]

/-- Claim C3, witness: the general rendering theorem applied to the `users`
table of the claim. -/
theorem c3_ddl_rendering_witness :
    ((⟨str "users", [⟨str "id", str "INTEGER", false⟩,
        ⟨str "email", str "VARCHAR", true⟩]⟩ : TableMeta).columns ≠ [])
    ∧ table_ddl (⟨str "users", [⟨str "id", str "INTEGER", false⟩,
        ⟨str "email", str "VARCHAR", true⟩]⟩ : TableMeta)
      = ddl_spec (⟨str "users", [⟨str "id", str "INTEGER", false⟩,
        ⟨str "email", str "VARCHAR", true⟩]⟩ : TableMeta) :=
  ⟨by decide, c3_ddl_rendering.1 _ (by decide)⟩

/-- Claim C4: every extracted statement ends with exactly one semicolon
(never doubled), has no leading or trailing whitespace, and contains some
SQL verb token case-insensitively. -/
theorem c4_statement_invariants : ∀ (content q : List Char), q ∈ extract content →
    endsSingleSemi q = true ∧ noEdgeWS q = true ∧ containsVerbCI q = true := by
  intro content q hq
  obtain ⟨f, hqf, hfne, hfverb, hhead, hlast, hsemi, hDD⟩ := extract_mem content q hq
  subst hqf
  refine ⟨?_, ?_, ?_⟩
  · unfold endsSingleSemi
    rw [List.getLast?_concat, List.dropLast_concat]
    simp only [beq_self_eq_true, Bool.true_and]
    rw [bne_iff_ne]
    cases hfl : f.getLast? with
    | none => exact fun he => Option.noConfusion he
    | some c =>
      have hcne : c ≠ ';' := fun he => hsemi (he ▸ mem_of_getLast?_char f c hfl)
      simp [hcne]
  · unfold noEdgeWS
    cases f with
    | nil => exact absurd rfl hfne
    | cons x xs =>
      have hx : isWS x = false := hhead x rfl
      have h1 : ((x :: xs) ++ [';']).head? = some x := rfl
      have h2 : ((x :: xs) ++ [';']).getLast? = some ';' := List.getLast?_concat _
      rw [h1, h2]
      have h3 : isWS ';' = false := by decide
      simp [hx, h3]
  · exact containsVerbCI_append f [';'] (hasVerbGo_imp_ci f false hfverb)

/-- Claim C4, witness: the invariants evaluated on the statement extracted
from the text SELECT 1. -/
theorem c4_statement_invariants_witness :
    (str "SELECT 1;") ∈ extract (str "SELECT 1")
    ∧ (endsSingleSemi (str "SELECT 1;") = true ∧ noEdgeWS (str "SELECT 1;") = true
      ∧ containsVerbCI (str "SELECT 1;") = true) :=
  ⟨by decide, c4_statement_invariants (str "SELECT 1") (str "SELECT 1;") (by decide)⟩

/-- Claim C5: the validity filter matches verbs only as whole words: the
fragment UPDATED_AT = now() is rejected by the filter and, end to end, the
text UPDATED_AT = now(); yields no statement; while any fragment containing
SELECT 1 preceded by a non-word character (or at the start) passes the
filter, whatever follows. -/
theorem c5_verb_word_boundary :
    hasVerb (str "UPDATED_AT = now()") = false
    ∧ extract (str "UPDATED_AT = now();") = []
    ∧ ∀ a b : List Char, (∀ c, a.getLast? = some c → isWordChar c = false) →
        hasVerb (a ++ str "SELECT 1" ++ b) = true := by
  refine ⟨by decide, by decide, ?_⟩
  intro a b hlast
  rw [List.append_assoc]
  rw [show str "SELECT 1" ++ b = 'S' :: 'E' :: 'L' :: 'E' :: 'C' :: 'T' :: ' ' :: '1' :: b
    from rfl]
  unfold hasVerb
  apply hasVerbGo_append
  rw [lastWord_false a hlast]
  rw [show hasVerbGo false ('S' :: 'E' :: 'L' :: 'E' :: 'C' :: 'T' :: ' ' :: '1' :: b)
    = ((!false && checkVerbAt ('S' :: 'E' :: 'L' :: 'E' :: 'C' :: 'T' :: ' ' :: '1' :: b))
      || hasVerbGo (isWordChar 'S') ('E' :: 'L' :: 'E' :: 'C' :: 'T' :: ' ' :: '1' :: b))
    from rfl]
  rw [checkVerbAt_SELECT ('1' :: b)]
  simp

/-- Claim C5, witness: the whole-word filter theorem applied at the empty
context, giving the filter on the bare fragment SELECT 1. -/
theorem c5_verb_word_boundary_witness :
    hasVerb ([] ++ str "SELECT 1" ++ []) = true :=
  c5_verb_word_boundary.2.2 [] [] (fun _ hc => Option.noConfusion hc)

/-- Claim C6: a nonexistent path yields the not-found signal with no
statements, an existing empty file yields the found signal with an empty
statement list, every existing file yields the found signal, and the two
signals are distinct; neither case is an error. -/
theorem c6_missing_file_distinction :
    extract_sql_queries none = (false, [])
    ∧ extract_sql_queries (some []) = (true, [])
    ∧ (∀ content : List Char, (extract_sql_queries (some content)).1 = true)
    ∧ (extract_sql_queries none).1 ≠ (extract_sql_queries (some [])).1 :=
  ⟨rfl, by decide, fun _ => rfl, by decide⟩

/-- Claim C7: a trailing fragment with no terminating semicolon is still
extracted: the text SELECT 1 yields exactly the statement SELECT 1; . -/
theorem c7_unterminated_tail : extract (str "SELECT 1") = [str "SELECT 1;"] := by decide

/-- Claim C8: comment stripping is idempotent. -/
theorem c8_strip_comments_idempotent :
    ∀ l : List Char, stripComments (stripComments l) = stripComments l := by
  intro l
  unfold stripComments
  exact stripComments_id_of_noDD _ (stripComments_noDD l).1

/-- Claim C9, counterexample: on the text SELECT 1 -- x; SELECT 2 the code
extracts two statements, while the comment-stripped text SELECT 1 holds no
semicolon at all, hence zero semicolon-terminated segments; the claimed
bound fails.  (The block splitter consumes the marker `-- x`, so the
semicolon hidden in that comment still separates statements, and the
unterminated tail is extracted as well.) -/
theorem c9_count_counterexample :
    ¬ ((extract (str "SELECT 1 -- x; SELECT 2")).length
      ≤ semiTerminatedSegments (stripComments (str "SELECT 1 -- x; SELECT 2"))) := by
  decide

/-- Claim C9, amended: the number of extracted statements never exceeds the
total number of segments obtained by semicolon-splitting the per-block
comment-stripped texts, the trailing unterminated segment of each block
included. -/
theorem c9_count_bound : ∀ content : List Char,
    (extract content).length
      ≤ ((splitDelims content).map
          (fun b => (splitSemis (stripComments b)).length)).sum := by
  intro content
  unfold extract
  rw [List.length_flatten, List.map_map]
  apply List.sum_le_sum
  intro b _
  simp only [Function.comp]
  unfold processBlock
  simp only [List.length_map]
  calc ((((splitSemis (stripComments b)).map stripWS).filter
          (fun q => !q.isEmpty)).filter hasVerb).length
      ≤ (((splitSemis (stripComments b)).map stripWS).filter
          (fun q => !q.isEmpty)).length := List.length_filter_le _ _
    _ ≤ ((splitSemis (stripComments b)).map stripWS).length := List.length_filter_le _ _
    _ = (splitSemis (stripComments b)).length := List.length_map _ _

/-- Claim C10: every extracted statement contains exactly one semicolon,
that semicolon is its final character, and it contains no occurrence of the
comment marker (two adjacent dashes). -/
theorem c10_statement_shape : ∀ (content q : List Char), q ∈ extract content →
    q.count ';' = 1 ∧ q.getLast? = some ';' ∧ containsDD q = false := by
  intro content q hq
  obtain ⟨f, hqf, _, _, _, _, hsemi, hDD⟩ := extract_mem content q hq
  subst hqf
  refine ⟨?_, List.getLast?_concat f, ?_⟩
  · rw [List.count_append, List.count_eq_zero.mpr hsemi]
    decide
  · rw [containsDD_concat f ';' (by decide)]
    exact hDD

/-- Claim C10, witness: the shape facts evaluated on the statement extracted
from the text DROP TABLE t. -/
theorem c10_statement_shape_witness :
    (str "DROP TABLE t;") ∈ extract (str "DROP TABLE t")
    ∧ ((str "DROP TABLE t;").count ';' = 1 ∧ (str "DROP TABLE t;").getLast? = some ';'
      ∧ containsDD (str "DROP TABLE t;") = false) :=
  ⟨by decide, c10_statement_shape (str "DROP TABLE t") (str "DROP TABLE t;") (by decide)⟩
